import Mathlib

/-!
Verification of the dynamic consortium key manager
(`dynamic_consortium_keys.py`): a Shamir-style (t, n) threshold
secret-sharing scheme with membership churn.

The Python code works with arbitrary-precision integers reduced modulo a
prime `p` at every arithmetic step; we embed such residues as elements of
`ZMod p`.  A coefficient list `[a0, a1, ...]` (constant term first, as in
the source) is a `List (ZMod p)`.  `pow(d, -1, prime)` raises `ValueError`
exactly when `d ≡ 0 (mod prime)` for prime modulus, so `interpolate`
returns an `Option`, with `none` for the raised exception.  Randomness
(`random.randrange`) is passed in as explicit parameters.
-/

namespace DCK

open Polynomial

variable {p : ℕ}

/-- Accumulator loop of `Polynomial.evaluate`: `result` is the running sum,
`power` the running power of `x`. -/
def evaluateAux : List (ZMod p) → ZMod p → ZMod p → ZMod p → ZMod p
  | [], _, result, _ => result
  | c :: cs, x, result, power => evaluateAux cs x (result + c * power) (power * x)

/-- `Polynomial.evaluate`: evaluate the coefficient list at the point `x`
(constant term first), all arithmetic mod `p`. -/
def evaluate (coefficients : List (ZMod p)) (x : ZMod p) : ZMod p :=
  evaluateAux coefficients x 0 1

/-- `Polynomial.multiply_terms`: the result has length
`len p1 + len p2 - 1` and entry `k` accumulates every `p1[i] * p2[j]` with
`i + j = k`; out-of-range indices contribute `0` (via `getD`), which matches
the double loop of the source exactly. -/
def multiply_terms (p1 p2 : List (ZMod p)) : List (ZMod p) :=
  (List.range (p1.length + p2.length - 1)).map fun k =>
    ∑ i ∈ Finset.range (k + 1), p1.getD i 0 * p2.getD (k - i) 0

/-- `Polynomial.scalar_multiply`. -/
def scalar_multiply (poly : List (ZMod p)) (scalar : ZMod p) : List (ZMod p) :=
  poly.map fun coeff => coeff * scalar

/-- `Polynomial.add_polynomials`: entrywise sum up to the longer length,
missing entries read as `0`. -/
def add_polynomials (p1 p2 : List (ZMod p)) : List (ZMod p) :=
  (List.range (max p1.length p2.length)).map fun i => p1.getD i 0 + p2.getD i 0

/-- The `x`-coordinate of `points[i]` (a missing index reads `(0, 0)`;
all uses stay in range). -/
def ptX (points : List (ZMod p × ZMod p)) (i : ℕ) : ZMod p :=
  (points.getD i (0, 0)).1

/-- The `y`-coordinate of `points[i]`. -/
def ptY (points : List (ZMod p × ZMod p)) (i : ℕ) : ZMod p :=
  (points.getD i (0, 0)).2

/-- Inner loop of `Polynomial.interpolate` building the Lagrange basis
numerator for index `i`: starting from `[1]`, multiply by `[-x_j, 1]` for
every index `j ≠ i`. -/
def numerOf (points : List (ZMod p × ZMod p)) (i : ℕ) : List (ZMod p) :=
  (List.range points.length).foldl
    (fun acc j => if i = j then acc else multiply_terms acc [-ptX points j, 1]) [1]

/-- Inner loop of `Polynomial.interpolate` accumulating the denominator
`∏_{j ≠ i} (x_i - x_j)` for index `i`.  (The source interleaves this with
the numerator loop; the two accumulators are independent.) -/
def denomOf (points : List (ZMod p × ZMod p)) (i : ℕ) : ZMod p :=
  (List.range points.length).foldl
    (fun acc j => if i = j then acc else acc * (ptX points i - ptX points j)) 1

/-- `Polynomial.interpolate`: Lagrange interpolation, accumulating scaled
basis numerators onto the running coefficient list `[0]`.  For prime `p`,
`pow(denominator, -1, prime)` raises `ValueError` exactly when the
denominator is `0 (mod p)`; that raised exception is modelled as `none`. -/
def interpolate (points : List (ZMod p × ZMod p)) : Option (List (ZMod p)) :=
  (List.range points.length).foldl
    (fun acc i =>
      acc.bind fun result =>
        if denomOf points i = 0 then none
        else
          some (add_polynomials result
            (scalar_multiply (numerOf points i)
              (ptY points i * (denomOf points i)⁻¹))))
    (some [0])

/-- The coefficient list produced by a successful `interpolate` run
(the same fold with the `Option` layer stripped). -/
def interpBody (points : List (ZMod p × ZMod p)) : List (ZMod p) :=
  (List.range points.length).foldl
    (fun result i =>
      add_polynomials result
        (scalar_multiply (numerOf points i)
          (ptY points i * (denomOf points i)⁻¹)))
    [0]

/-- Interpretation of a coefficient list (constant term first) as a
Mathlib polynomial. -/
noncomputable def toPoly : List (ZMod p) → Polynomial (ZMod p)
  | [] => 0
  | a :: l => C a + X * toPoly l

theorem coeff_toPoly (l : List (ZMod p)) (k : ℕ) :
    (toPoly l).coeff k = l.getD k 0 := by
  induction l generalizing k with
  | nil => simp [toPoly]
  | cons a l ih =>
    cases k with
    | zero => simp [toPoly, coeff_add, mul_coeff_zero]
    | succ k => simp [toPoly, coeff_add, coeff_X_mul, ih, List.getD_cons_succ]

theorem toPoly_eq_of_getD (l₁ l₂ : List (ZMod p))
    (h : ∀ k, l₁.getD k 0 = l₂.getD k 0) : toPoly l₁ = toPoly l₂ := by
  ext k
  rw [coeff_toPoly, coeff_toPoly, h]

theorem evaluateAux_eq (l : List (ZMod p)) (x r pw : ZMod p) :
    evaluateAux l x r pw = r + pw * (toPoly l).eval x := by
  induction l generalizing r pw with
  | nil => simp [evaluateAux, toPoly]
  | cons c cs ih =>
    simp only [evaluateAux, ih, toPoly, eval_add, eval_C, eval_mul, eval_X]
    ring

theorem evaluate_eq_eval (l : List (ZMod p)) (x : ZMod p) :
    evaluate l x = (toPoly l).eval x := by
  simp [evaluate, evaluateAux_eq]

theorem length_add_polynomials (p1 p2 : List (ZMod p)) :
    (add_polynomials p1 p2).length = max p1.length p2.length := by
  simp [add_polynomials]

theorem length_scalar_multiply (l : List (ZMod p)) (s : ZMod p) :
    (scalar_multiply l s).length = l.length := by
  simp [scalar_multiply]

theorem length_multiply_terms (p1 p2 : List (ZMod p)) :
    (multiply_terms p1 p2).length = p1.length + p2.length - 1 := by
  simp [multiply_terms]

theorem getD_map_range (n k : ℕ) (f : ℕ → ZMod p) :
    ((List.range n).map f).getD k 0 = if k < n then f k else 0 := by
  by_cases h : k < n
  · rw [List.getD_eq_getElem _ _ (by simpa using h)]
    simp [h]
  · rw [List.getD_eq_default _ _ (by simpa using Nat.le_of_not_lt h)]
    simp [h]

theorem getD_add_polynomials (p1 p2 : List (ZMod p)) (k : ℕ) :
    (add_polynomials p1 p2).getD k 0 = p1.getD k 0 + p2.getD k 0 := by
  rw [add_polynomials, getD_map_range]
  by_cases h : k < max p1.length p2.length
  · rw [if_pos h]
  · have h1 : p1.length ≤ k := le_trans (le_max_left _ _) (Nat.le_of_not_lt h)
    have h2 : p2.length ≤ k := le_trans (le_max_right _ _) (Nat.le_of_not_lt h)
    rw [if_neg h, List.getD_eq_default _ _ h1, List.getD_eq_default _ _ h2, add_zero]

theorem toPoly_add_polynomials (p1 p2 : List (ZMod p)) :
    toPoly (add_polynomials p1 p2) = toPoly p1 + toPoly p2 := by
  ext k
  rw [coeff_add, coeff_toPoly, coeff_toPoly, coeff_toPoly, getD_add_polynomials]

theorem getD_scalar_multiply (l : List (ZMod p)) (s : ZMod p) (k : ℕ) :
    (scalar_multiply l s).getD k 0 = l.getD k 0 * s := by
  by_cases h : k < l.length
  · rw [scalar_multiply, List.getD_eq_getElem _ _ (by simpa using h),
      List.getD_eq_getElem _ _ h]
    simp
  · have h' : l.length ≤ k := Nat.le_of_not_lt h
    rw [List.getD_eq_default _ _ (by simpa [scalar_multiply] using h'),
      List.getD_eq_default _ _ h']
    simp

theorem toPoly_scalar_multiply (l : List (ZMod p)) (s : ZMod p) :
    toPoly (scalar_multiply l s) = toPoly l * C s := by
  ext k
  rw [coeff_mul_C, coeff_toPoly, coeff_toPoly, getD_scalar_multiply]

theorem toPoly_multiply_terms (p1 p2 : List (ZMod p)) :
    toPoly (multiply_terms p1 p2) = toPoly p1 * toPoly p2 := by
  ext k
  rw [coeff_toPoly, coeff_mul, Finset.Nat.sum_antidiagonal_eq_sum_range_succ_mk,
    multiply_terms, getD_map_range]
  by_cases h : k < p1.length + p2.length - 1
  · rw [if_pos h]
    refine Finset.sum_congr rfl fun i _ => ?_
    simp only [coeff_toPoly]
  · rw [if_neg h, eq_comm]
    refine Finset.sum_eq_zero fun i hi => ?_
    simp only [coeff_toPoly]
    rcases Nat.lt_or_ge i p1.length with h1 | h1
    · rcases Nat.lt_or_ge (k - i) p2.length with h2 | h2
      · exfalso
        have hik : i ≤ k := Nat.le_of_lt_succ (Finset.mem_range.1 hi)
        omega
      · rw [List.getD_eq_default _ _ h2, mul_zero]
    · rw [List.getD_eq_default _ _ h1, zero_mul]

theorem degree_toPoly_lt (l : List (ZMod p)) :
    (toPoly l).degree < (l.length : WithBot ℕ) := by
  rcases l with _ | ⟨a, l⟩
  · simp only [toPoly, degree_zero, List.length_nil, Nat.cast_zero]
    exact WithBot.bot_lt_coe 0
  · rw [degree_lt_iff_coeff_zero]
    intro m hm
    rw [coeff_toPoly]
    exact List.getD_eq_default _ _ (by exact_mod_cast hm)

theorem foldl_skip_eq_foldl_filter {β : Type} (g : β → ℕ → β) (i : ℕ) :
    ∀ (L : List ℕ) (a : β),
      L.foldl (fun acc j => if i = j then acc else g acc j) a =
        (L.filter fun j => !(i == j)).foldl g a := by
  intro L
  induction L with
  | nil => intro a; rfl
  | cons b L ih =>
    intro a
    by_cases h : i = b
    · subst h
      simp [List.filter_cons, ih]
    · have hb : (i == b) = false := by simpa using h
      simp [List.filter_cons, if_neg h, hb, ih]

theorem foldl_mul_eq (f : ℕ → ZMod p) :
    ∀ (L : List ℕ) (a : ZMod p),
      L.foldl (fun acc j => acc * f j) a = a * (L.map f).prod := by
  intro L
  induction L with
  | nil => intro a; simp
  | cons b L ih =>
    intro a
    simp only [List.foldl_cons, List.map_cons, List.prod_cons, ih, mul_assoc]

theorem toPoly_pair (c : ZMod p) : toPoly [-c, 1] = X - C c := by
  simp only [toPoly, map_neg, map_one, mul_add, mul_zero, mul_one]
  ring

theorem toPoly_mulfold (f : ℕ → ZMod p) :
    ∀ (L : List ℕ) (a : List (ZMod p)),
      toPoly (L.foldl (fun acc j => multiply_terms acc [-f j, 1]) a) =
        toPoly a * (L.map fun j => X - C (f j)).prod := by
  intro L
  induction L with
  | nil => intro a; simp
  | cons b L ih =>
    intro a
    simp only [List.foldl_cons, List.map_cons, List.prod_cons, ih,
      toPoly_multiply_terms, toPoly_pair, mul_assoc]

theorem length_mulfold (f : ℕ → ZMod p) :
    ∀ (L : List ℕ) (a : List (ZMod p)),
      (L.foldl (fun acc j => multiply_terms acc [-f j, 1]) a).length =
        a.length + L.length := by
  intro L
  induction L with
  | nil => intro a; simp
  | cons b L ih =>
    intro a
    simp only [List.foldl_cons, ih, length_multiply_terms, List.length_cons,
      List.length_nil]
    omega

/-- The index set the inner loops of `interpolate` actually visit for
outer index `i`. -/
def otherIdx (n i : ℕ) : List ℕ :=
  (List.range n).filter fun j => !(i == j)

theorem mem_otherIdx (n i j : ℕ) : j ∈ otherIdx n i ↔ j < n ∧ j ≠ i := by
  simp only [otherIdx, List.mem_filter, List.mem_range, Bool.not_eq_eq_eq_not,
    Bool.not_true, beq_eq_false_iff_ne, ne_eq]
  exact and_congr_right fun _ => ne_comm

theorem length_otherIdx (n i : ℕ) :
    (otherIdx n i).length = if i < n then n - 1 else n := by
  induction n with
  | zero => simp [otherIdx]
  | succ n ih =>
    rw [otherIdx, List.range_succ, List.filter_append, List.length_append,
      ← otherIdx, ih]
    by_cases h : i = n
    · subst h
      have he : List.filter (fun j => !(i == j)) [i] = [] := by simp
      rw [he, if_neg (lt_irrefl i), if_pos (Nat.lt_succ_self i)]
      simp
    · have hb : (i == n) = false := by simpa using h
      have he : List.filter (fun j => !(i == j)) [n] = [n] := by simp [hb]
      rw [he]
      by_cases hin : i < n
      · rw [if_pos hin, if_pos (by omega)]
        simp only [List.length_cons, List.length_nil]
        omega
      · rw [if_neg hin, if_neg (by omega)]
        simp only [List.length_cons, List.length_nil]

theorem numerOf_eq (points : List (ZMod p × ZMod p)) (i : ℕ) :
    toPoly (numerOf points i) =
      ((otherIdx points.length i).map fun j => X - C (ptX points j)).prod := by
  rw [numerOf, foldl_skip_eq_foldl_filter, ← otherIdx, toPoly_mulfold]
  simp [toPoly]

theorem length_numerOf (points : List (ZMod p × ZMod p)) (i : ℕ)
    (hi : i < points.length) :
    (numerOf points i).length = points.length := by
  rw [numerOf, foldl_skip_eq_foldl_filter, ← otherIdx, length_mulfold,
    length_otherIdx, if_pos hi]
  simp only [List.length_cons, List.length_nil]
  omega

theorem denomOf_eq (points : List (ZMod p × ZMod p)) (i : ℕ) :
    denomOf points i =
      ((otherIdx points.length i).map fun j => ptX points i - ptX points j).prod := by
  rw [denomOf, foldl_skip_eq_foldl_filter, ← otherIdx, foldl_mul_eq, one_mul]

theorem eval_numerOf (points : List (ZMod p × ZMod p)) (i : ℕ) (x : ZMod p) :
    (toPoly (numerOf points i)).eval x =
      ((otherIdx points.length i).map fun j => x - ptX points j).prod := by
  rw [numerOf_eq, eval_list_prod, List.map_map]
  refine congrArg List.prod (List.map_congr_left fun j _ => ?_)
  simp

theorem eval_numerOf_self (points : List (ZMod p × ZMod p)) (i : ℕ) :
    (toPoly (numerOf points i)).eval (ptX points i) = denomOf points i := by
  rw [eval_numerOf, denomOf_eq]

theorem eval_numerOf_ne (points : List (ZMod p × ZMod p)) {i k : ℕ}
    (hk : k < points.length) (hik : k ≠ i) :
    (toPoly (numerOf points i)).eval (ptX points k) = 0 := by
  rw [eval_numerOf]
  exact List.prod_eq_zero
    (List.mem_map.2 ⟨k, (mem_otherIdx _ _ _).2 ⟨hk, hik⟩, sub_self _⟩)

/-- Pairwise distinctness of the `x`-coordinates, indexwise. -/
def DistinctX (points : List (ZMod p × ZMod p)) : Prop :=
  ∀ a b, a < points.length → b < points.length → a ≠ b →
    ptX points a ≠ ptX points b

theorem denomOf_ne_zero [Fact p.Prime] (points : List (ZMod p × ZMod p)) {i : ℕ}
    (hi : i < points.length) (hx : DistinctX points) :
    denomOf points i ≠ 0 := by
  rw [denomOf_eq]
  apply List.prod_ne_zero
  intro h0
  obtain ⟨j, hj, hj0⟩ := List.mem_map.1 h0
  obtain ⟨hjn, hji⟩ := (mem_otherIdx _ _ _).1 hj
  exact hx i j hi hjn (Ne.symm hji) (sub_eq_zero.1 hj0)

/-- One iteration of the outer loop of `interpolate` on the running
coefficient list. -/
def interpStep (points : List (ZMod p × ZMod p)) (result : List (ZMod p))
    (i : ℕ) : List (ZMod p) :=
  add_polynomials result
    (scalar_multiply (numerOf points i) (ptY points i * (denomOf points i)⁻¹))

theorem interpBody_eq_foldl (points : List (ZMod p × ZMod p)) :
    interpBody points = (List.range points.length).foldl (interpStep points) [0] :=
  rfl

theorem interpolate_eq_foldl (points : List (ZMod p × ZMod p)) :
    interpolate points =
      (List.range points.length).foldl
        (fun acc i =>
          acc.bind fun result =>
            if denomOf points i = 0 then none
            else some (interpStep points result i))
        (some [0]) :=
  rfl

theorem foldl_interpStep_none (points : List (ZMod p × ZMod p)) :
    ∀ L : List ℕ,
      L.foldl
        (fun acc i =>
          acc.bind fun result =>
            if denomOf points i = 0 then none
            else some (interpStep points result i))
        none = none := by
  intro L
  induction L with
  | nil => rfl
  | cons b L ih => simpa using ih

theorem foldl_interpStep_some (points : List (ZMod p × ZMod p)) :
    ∀ (L : List ℕ) (r : List (ZMod p)), (∀ i ∈ L, denomOf points i ≠ 0) →
      L.foldl
        (fun acc i =>
          acc.bind fun result =>
            if denomOf points i = 0 then none
            else some (interpStep points result i))
        (some r) = some (L.foldl (interpStep points) r) := by
  intro L
  induction L with
  | nil => intro r _; rfl
  | cons b L ih =>
    intro r h
    have hb : denomOf points b ≠ 0 := h b (List.mem_cons_self b L)
    simp only [List.foldl_cons, Option.bind_some, if_neg hb]
    exact ih _ fun i hi => h i (List.mem_cons_of_mem _ hi)

theorem foldl_interpStep_fail (points : List (ZMod p × ZMod p)) :
    ∀ (L : List ℕ) (r : List (ZMod p)), (∃ i ∈ L, denomOf points i = 0) →
      L.foldl
        (fun acc i =>
          acc.bind fun result =>
            if denomOf points i = 0 then none
            else some (interpStep points result i))
        (some r) = none := by
  intro L
  induction L with
  | nil => intro r h; simp at h
  | cons b L ih =>
    intro r h
    by_cases hb : denomOf points b = 0
    · simp only [List.foldl_cons, Option.bind_some, if_pos hb]
      exact foldl_interpStep_none points L
    · obtain ⟨i, hi, hi0⟩ := h
      rcases List.mem_cons.1 hi with rfl | hi'
      · exact absurd hi0 hb
      · simp only [List.foldl_cons, Option.bind_some, if_neg hb]
        exact ih _ ⟨i, hi', hi0⟩

theorem interpolate_eq_some (points : List (ZMod p × ZMod p))
    (hd : ∀ i < points.length, denomOf points i ≠ 0) :
    interpolate points = some (interpBody points) := by
  rw [interpolate_eq_foldl, interpBody_eq_foldl]
  exact foldl_interpStep_some points _ _ fun i hi => hd i (List.mem_range.1 hi)

theorem interpolate_eq_none (points : List (ZMod p × ZMod p))
    (h : ∃ i < points.length, denomOf points i = 0) :
    interpolate points = none := by
  rw [interpolate_eq_foldl]
  obtain ⟨i, hi, hi0⟩ := h
  exact foldl_interpStep_fail points _ _ ⟨i, List.mem_range.2 hi, hi0⟩

theorem toPoly_foldl_interpStep (points : List (ZMod p × ZMod p)) :
    ∀ (L : List ℕ) (r : List (ZMod p)),
      toPoly (L.foldl (interpStep points) r) =
        toPoly r +
          (L.map fun i =>
            toPoly (numerOf points i) * C (ptY points i * (denomOf points i)⁻¹)).sum := by
  intro L
  induction L with
  | nil => intro r; simp
  | cons b L ih =>
    intro r
    simp only [List.foldl_cons, List.map_cons, List.sum_cons, ih, interpStep,
      toPoly_add_polynomials, toPoly_scalar_multiply, add_assoc]

theorem length_foldl_interpStep (points : List (ZMod p × ZMod p)) :
    ∀ (L : List ℕ) (r : List (ZMod p)), (∀ i ∈ L, i < points.length) → L ≠ [] →
      (L.foldl (interpStep points) r).length = max r.length points.length := by
  intro L
  induction L with
  | nil => intro r _ h; exact absurd rfl h
  | cons b L ih =>
    intro r hmem _
    have hb : b < points.length := hmem b (List.mem_cons_self b L)
    have hstep : (interpStep points r b).length = max r.length points.length := by
      rw [interpStep, length_add_polynomials, length_scalar_multiply,
        length_numerOf points b hb]
    rcases L with _ | ⟨c, L⟩
    · simpa using hstep
    · rw [List.foldl_cons, ih _ (fun i hi => hmem i (List.mem_cons_of_mem _ hi))
        (by simp), hstep, max_assoc, max_self]

theorem length_interpBody (points : List (ZMod p × ZMod p))
    (h0 : 0 < points.length) :
    (interpBody points).length = points.length := by
  rw [interpBody_eq_foldl,
    length_foldl_interpStep points _ _ (fun i hi => List.mem_range.1 hi)
      (by simpa using Nat.pos_iff_ne_zero.1 h0)]
  simp [Nat.one_le_iff_ne_zero.2 (Nat.pos_iff_ne_zero.1 h0)]

theorem list_map_range_sum {M : Type} [AddCommMonoid M] (f : ℕ → M) (n : ℕ) :
    ((List.range n).map f).sum = ∑ i ∈ Finset.range n, f i := by
  induction n with
  | zero => simp
  | succ n ih =>
    rw [List.range_succ, List.map_append, List.sum_append, Finset.sum_range_succ, ih]
    simp

theorem eval_interpBody [Fact p.Prime] (points : List (ZMod p × ZMod p))
    {k : ℕ} (hk : k < points.length) (hx : DistinctX points) :
    (toPoly (interpBody points)).eval (ptX points k) = ptY points k := by
  have h1 : toPoly ([0] : List (ZMod p)) = 0 := by simp [toPoly]
  rw [interpBody_eq_foldl, toPoly_foldl_interpStep, h1, zero_add,
    list_map_range_sum, eval_finset_sum]
  rw [Finset.sum_eq_single k]
  · have hdk : denomOf points k ≠ 0 := denomOf_ne_zero points hk hx
    rw [eval_mul, eval_C, eval_numerOf_self, mul_comm (ptY points k) _,
      ← mul_assoc, mul_inv_cancel₀ hdk, one_mul]
  · intro i _ hik
    rw [eval_mul, eval_numerOf_ne points hk (Ne.symm hik), zero_mul]
  · intro hknot
    exact absurd (Finset.mem_range.2 hk) hknot

theorem toPoly_interpBody_eq [Fact p.Prime] (points : List (ZMod p × ZMod p))
    (h0 : 0 < points.length) (hx : DistinctX points) (f : Polynomial (ZMod p))
    (hdeg : f.degree < (points.length : WithBot ℕ))
    (hev : ∀ k, k < points.length → f.eval (ptX points k) = ptY points k) :
    toPoly (interpBody points) = f := by
  have hcard : ((Finset.range points.length).card : WithBot ℕ) = points.length := by
    rw [Finset.card_range]
  apply Polynomial.eq_of_degrees_lt_of_eval_index_eq (s := Finset.range points.length)
    (v := fun i => ptX points i)
  · intro a ha b hb hab
    by_contra hne
    exact hx a b (by simpa using ha) (by simpa using hb) hne hab
  · rw [hcard]
    have h := degree_toPoly_lt (interpBody points)
    rwa [length_interpBody points h0] at h
  · rw [hcard]
    exact hdeg
  · intro i hi
    rw [eval_interpBody points (by simpa using hi) hx, hev i (by simpa using hi)]

/-- Main correctness statement for `Polynomial.interpolate`: on a nonempty
point list with pairwise-distinct `x`-coordinates that all lie on a
polynomial `f` of degree below the number of points, interpolation succeeds
and reconstructs exactly `f`. -/
theorem interpolate_spec [Fact p.Prime] (points : List (ZMod p × ZMod p))
    (h0 : 0 < points.length) (hx : DistinctX points) (f : Polynomial (ZMod p))
    (hdeg : f.degree < (points.length : WithBot ℕ))
    (hev : ∀ k, k < points.length → f.eval (ptX points k) = ptY points k) :
    interpolate points = some (interpBody points) ∧
      toPoly (interpBody points) = f ∧
      (interpBody points).length = points.length :=
  ⟨interpolate_eq_some points fun i hi => denomOf_ne_zero points hi hx,
    toPoly_interpBody_eq points h0 hx f hdeg hev,
    length_interpBody points h0⟩

theorem getD_zero_interpBody [Fact p.Prime] (points : List (ZMod p × ZMod p))
    (h0 : 0 < points.length) (hx : DistinctX points) (f : Polynomial (ZMod p))
    (hdeg : f.degree < (points.length : WithBot ℕ))
    (hev : ∀ k, k < points.length → f.eval (ptX points k) = ptY points k) :
    (interpBody points).getD 0 0 = f.coeff 0 := by
  rw [← coeff_toPoly, (interpolate_spec points h0 hx f hdeg hev).2.1]

/-- The `Member` dataclass. -/
structure Member (p : ℕ) where
  id : ℕ
  share : ZMod p
  public_key : ZMod p
  is_active : Bool
deriving DecidableEq

/-- `ConsortiumKeyManager` state.  The Python object also stores `prime`,
which here is the type index `p`; `members` is the insertion-ordered dict
`id -> Member` (Python dicts preserve insertion order, and both mutation
sites preserve positions). -/
structure KeyManager (p : ℕ) where
  threshold : ℕ
  members : List (Member p)
  active_member_count : ℤ
  master_secret : ZMod p
deriving DecidableEq

/-- `ConsortiumKeyManager.setup_initial_shares`, with the sampled secret `s`
and the `threshold - 1` random higher coefficients passed in explicitly (the
`random.randrange` draws).  Members `1..n` receive share `F(i)` and
`public_key = share^2 mod p`. -/
def setup_initial_shares (threshold : ℕ) (s : ZMod p) (rand : List (ZMod p))
    (n : ℕ) : KeyManager p :=
  let coefficients := s :: rand
  { threshold := threshold
    members :=
      (List.range' 1 n).map fun i =>
        { id := i, share := evaluate coefficients (i : ZMod p),
          public_key := evaluate coefficients (i : ZMod p) ^ 2,
          is_active := true }
    active_member_count := (n : ℤ)
    master_secret := s }

/-- The members `collect_threshold_shares` scans past its guard: active and
not excluded, in registry order. -/
def eligible (mgr : KeyManager p) (exclude : List ℕ) : List (Member p) :=
  mgr.members.filter fun m => m.is_active && !(exclude.contains m.id)

/-- `ConsortiumKeyManager.collect_threshold_shares`.  The loop appends the
`(id, share)` pair of each eligible member in registry order and breaks once
at least `threshold` pairs are collected; since the break check runs only
after an append, with `threshold = 0` the first eligible pair is still
collected, hence `take (max threshold 1)`.  Returns `none` when fewer than
`threshold` pairs qualify. -/
def collect_threshold_shares (mgr : KeyManager p) (exclude : List ℕ) :
    Option (List (ℕ × ZMod p)) :=
  let shares :=
    ((eligible mgr exclude).take (max mgr.threshold 1)).map fun m =>
      (m.id, m.share)
  if mgr.threshold ≤ shares.length then some shares else none

/-- Member ids are Python ints used directly as evaluation points mod `p`;
embed each collected pair `(id, share)` as `((id : ZMod p), share)`. -/
def castPoints (shares : List (ℕ × ZMod p)) : List (ZMod p × ZMod p) :=
  shares.map fun q => ((q.1 : ZMod p), q.2)

/-- `ConsortiumKeyManager.add_member`.  Returns the Python return value
(`some member` or `none` for Python `None`) paired with the post-call state.
Every failure path — duplicate id, falsy (`None` or empty) share list, or
the `ValueError` raised by modular inversion inside `interpolate` — occurs
before any mutation, so those paths return the state unchanged. -/
def add_member (mgr : KeyManager p) (new_member_id : ℕ) :
    Option (Member p) × KeyManager p :=
  if mgr.members.any fun m => m.id == new_member_id then (none, mgr)
  else
    match collect_threshold_shares mgr [] with
    | none => (none, mgr)
    | some shares =>
      if shares.isEmpty then (none, mgr)
      else
        match interpolate (castPoints shares) with
        | none => (none, mgr)
        | some coefficients =>
          let share := evaluate coefficients (new_member_id : ZMod p)
          let member : Member p :=
            { id := new_member_id, share := share, public_key := share ^ 2,
              is_active := true }
          (some member,
            { mgr with
              members := mgr.members ++ [member]
              active_member_count := mgr.active_member_count + 1 })

/-- `ConsortiumKeyManager.remove_member`, with the fresh random higher
coefficients of the reshare polynomial passed in as `rand`.  Returns the
boolean result paired with the post-call state.  The reshare keeps only the
constant term `coefficients[0]` of the interpolated polynomial, overwrites
every other active member's share and public key with evaluations of the
new polynomial, then deactivates the departing member (whose own share is
left as it was). -/
def remove_member (mgr : KeyManager p) (member_id : ℕ) (rand : List (ZMod p)) :
    Bool × KeyManager p :=
  match mgr.members.find? fun m => m.id == member_id with
  | none => (false, mgr)
  | some m =>
    if !m.is_active then (false, mgr)
    else
      match collect_threshold_shares mgr [member_id] with
      | none => (false, mgr)
      | some shares =>
        if shares.isEmpty then (false, mgr)
        else
          match interpolate (castPoints shares) with
          | none => (false, mgr)
          | some coefficients =>
            let new_coefficients := coefficients.getD 0 0 :: rand
            let redistributed :=
              mgr.members.map fun mem =>
                if mem.id != member_id && mem.is_active then
                  { mem with
                    share := evaluate new_coefficients (mem.id : ZMod p),
                    public_key := evaluate new_coefficients (mem.id : ZMod p) ^ 2 }
                else mem
            let deactivated :=
              redistributed.map fun mem =>
                if mem.id == member_id then { mem with is_active := false }
                else mem
            (true,
              { mgr with
                members := deactivated
                active_member_count := mgr.active_member_count - 1 })

/-- `ConsortiumKeyManager.sign_message`.  The message enters only through
its SHA-256 digest, an external primitive; `msg_hash` stands for that digest
value.  The code takes `signers[:threshold]`, keeps those that are active
members, fails if fewer than `threshold` remain, and otherwise raises
`msg_hash` to the interpolated constant term (a canonical representative in
`[0, p)`, i.e. `.val`). -/
def sign_message (mgr : KeyManager p) (msg_hash : ℕ) (signers : List ℕ) :
    Option (ZMod p) :=
  if signers.length < mgr.threshold then none
  else
    let shares :=
      (signers.take mgr.threshold).filterMap fun signer_id =>
        match mgr.members.find? fun m => m.id == signer_id with
        | some m => if m.is_active then some (signer_id, m.share) else none
        | none => none
    if shares.length < mgr.threshold then none
    else
      match interpolate (castPoints shares) with
      | none => none
      | some coefficients =>
        some ((msg_hash : ZMod p) ^ (coefficients.getD 0 0).val)

/-- `ConsortiumKeyManager.verify_signature`: recompute
`pow(msg_hash, master_secret, p)` (exponent is the stored representative in
`[0, p)`, i.e. `.val`) and compare. -/
def verify_signature (mgr : KeyManager p) (msg_hash : ℕ) (signature : ZMod p) :
    Bool :=
  signature == (msg_hash : ZMod p) ^ mgr.master_secret.val

/-- Every active member's share lies on the sharing polynomial with
coefficient list `F` — the central registry invariant. -/
def SharesOn (mgr : KeyManager p) (F : List (ZMod p)) : Prop :=
  ∀ m ∈ mgr.members, m.is_active = true → m.share = evaluate F (m.id : ZMod p)

/-- Member ids are pairwise distinct and below the field modulus, so ids are
distinct evaluation points mod `p`. -/
def GoodIds (mgr : KeyManager p) : Prop :=
  (mgr.members.map Member.id).Nodup ∧ ∀ m ∈ mgr.members, m.id < p

theorem natCast_ne_natCast {a b : ℕ} (ha : a < p) (hb : b < p) (hab : a ≠ b) :
    (a : ZMod p) ≠ (b : ZMod p) := fun h =>
  hab (by rw [← ZMod.val_cast_of_lt ha, ← ZMod.val_cast_of_lt hb, h])

theorem length_castPoints (prs : List (ℕ × ZMod p)) :
    (castPoints prs).length = prs.length := by
  simp [castPoints]

theorem ptX_castPoints (prs : List (ℕ × ZMod p)) {a : ℕ} (ha : a < prs.length) :
    ptX (castPoints prs) a = ((prs.get ⟨a, ha⟩).1 : ZMod p) := by
  rw [ptX, castPoints, List.getD_eq_getElem _ _ (by simpa using ha)]
  simp

theorem ptY_castPoints (prs : List (ℕ × ZMod p)) {a : ℕ} (ha : a < prs.length) :
    ptY (castPoints prs) a = (prs.get ⟨a, ha⟩).2 := by
  rw [ptY, castPoints, List.getD_eq_getElem _ _ (by simpa using ha)]
  simp

theorem nodup_fst_get_ne (prs : List (ℕ × ZMod p))
    (hid : (prs.map Prod.fst).Nodup) {a b : ℕ} (ha : a < prs.length)
    (hb : b < prs.length) (hab : a ≠ b) :
    (prs.get ⟨a, ha⟩).1 ≠ (prs.get ⟨b, hb⟩).1 := by
  intro h
  apply hab
  have hinj := List.nodup_iff_injective_get.1 hid
  have h2 := @hinj ⟨a, by simpa using ha⟩ ⟨b, by simpa using hb⟩
    (by simpa using h)
  simpa using congrArg Fin.val h2

/-- Interpolating any list of `(id, share)` pairs that lie on the
coefficient list `F`, with as many pairs as coefficients and distinct ids
below `p`, succeeds and reconstructs `F`'s polynomial — in particular the
constant term (the shared secret) is recovered. -/
theorem interp_pairs [Fact p.Prime] (F : List (ZMod p))
    (prs : List (ℕ × ZMod p)) (hlen : prs.length = F.length)
    (h0 : 0 < F.length) (hid : (prs.map Prod.fst).Nodup)
    (hlt : ∀ q ∈ prs, q.1 < p)
    (hsh : ∀ q ∈ prs, q.2 = evaluate F (q.1 : ZMod p)) :
    interpolate (castPoints prs) = some (interpBody (castPoints prs)) ∧
      toPoly (interpBody (castPoints prs)) = toPoly F ∧
      (interpBody (castPoints prs)).getD 0 0 = F.getD 0 0 ∧
      (interpBody (castPoints prs)).length = F.length := by
  have hplen : (castPoints prs).length = F.length := by
    rw [length_castPoints, hlen]
  have h0' : 0 < (castPoints prs).length := by rwa [hplen]
  have hx : DistinctX (castPoints prs) := by
    intro a b ha hb hab
    rw [hplen, ← hlen] at ha hb
    rw [ptX_castPoints prs ha, ptX_castPoints prs hb]
    exact natCast_ne_natCast (hlt _ (List.get_mem _ _ _)) (hlt _ (List.get_mem _ _ _))
      (nodup_fst_get_ne prs hid ha hb hab)
  have hdeg : (toPoly F).degree < ((castPoints prs).length : WithBot ℕ) := by
    rw [hplen]
    exact degree_toPoly_lt F
  have hev : ∀ k, k < (castPoints prs).length →
      (toPoly F).eval (ptX (castPoints prs) k) = ptY (castPoints prs) k := by
    intro k hk
    rw [hplen, ← hlen] at hk
    rw [ptX_castPoints prs hk, ptY_castPoints prs hk, ← evaluate_eq_eval]
    exact (hsh _ (List.get_mem _ _ _)).symm
  obtain ⟨hsome, hpoly, hlength⟩ :=
    interpolate_spec (castPoints prs) h0' hx (toPoly F) hdeg hev
  refine ⟨hsome, hpoly, ?_, by rw [hlength, hplen]⟩
  rw [← coeff_toPoly, hpoly, coeff_toPoly]

/-- Interpolating the `(id, share)` pairs of any selection of members whose
shares lie on `F`, with as many members as coefficients and distinct ids
below `p`, recovers `F`'s polynomial and hence the secret `F[0]`. -/
theorem interp_members [Fact p.Prime] (F : List (ZMod p))
    (sel : List (Member p)) (hlen : sel.length = F.length)
    (h0 : 0 < F.length) (hid : (sel.map Member.id).Nodup)
    (hlt : ∀ m ∈ sel, m.id < p)
    (hsh : ∀ m ∈ sel, m.share = evaluate F (m.id : ZMod p)) :
    ∃ l, interpolate (castPoints (sel.map fun m => (m.id, m.share))) = some l ∧
      toPoly l = toPoly F ∧ l.getD 0 0 = F.getD 0 0 ∧ l.length = F.length := by
  obtain ⟨h1, h2, h3, h4⟩ :=
    interp_pairs F (sel.map fun m => (m.id, m.share))
      (by rw [List.length_map, hlen]) h0
      (by rw [List.map_map]; exact hid)
      (by
        intro q hq
        obtain ⟨m, hm, rfl⟩ := List.mem_map.1 hq
        exact hlt m hm)
      (by
        intro q hq
        obtain ⟨m, hm, rfl⟩ := List.mem_map.1 hq
        exact hsh m hm)
  exact ⟨_, h1, h2, h3, h4⟩

theorem collect_eq_some (mgr : KeyManager p) (exclude : List ℕ)
    (ht : 0 < mgr.threshold)
    (hq : mgr.threshold ≤ (eligible mgr exclude).length) :
    collect_threshold_shares mgr exclude =
      some (((eligible mgr exclude).take mgr.threshold).map fun m =>
        (m.id, m.share)) := by
  rw [collect_threshold_shares, max_eq_left ht]
  rw [if_pos]
  rw [List.length_map, List.length_take]
  exact le_min le_rfl hq

theorem length_take_eligible (mgr : KeyManager p) (exclude : List ℕ)
    (hq : mgr.threshold ≤ (eligible mgr exclude).length) :
    ((eligible mgr exclude).take mgr.threshold).length = mgr.threshold := by
  rw [List.length_take]
  exact min_eq_left hq

theorem take_eligible_sublist (mgr : KeyManager p) (exclude : List ℕ) (k : ℕ) :
    ((eligible mgr exclude).take k).Sublist mgr.members :=
  ((eligible mgr exclude).take_sublist k).trans (List.filter_sublist _)

theorem mem_take_eligible {mgr : KeyManager p} {exclude : List ℕ} {k : ℕ}
    {m : Member p} (hm : m ∈ (eligible mgr exclude).take k) :
    m ∈ mgr.members ∧ m.is_active = true ∧ exclude.contains m.id = false := by
  have hmel : m ∈ eligible mgr exclude := List.mem_of_mem_take hm
  have hmem : m ∈ mgr.members := List.mem_of_mem_filter hmel
  have hpred := List.of_mem_filter hmel
  rw [Bool.and_eq_true, Bool.not_eq_true'] at hpred
  exact ⟨hmem, hpred.1, hpred.2⟩

/-- Workhorse: under the registry invariants, a successful collection (any
exclusion list, at least `t` eligible members) interpolates back to the
sharing polynomial `F`, recovering the secret `F[0]` as constant term. -/
theorem collect_interp [Fact p.Prime] (mgr : KeyManager p) (exclude : List ℕ)
    (F : List (ZMod p)) (hF : F.length = mgr.threshold)
    (ht : 0 < mgr.threshold) (hon : SharesOn mgr F) (hids : GoodIds mgr)
    (hq : mgr.threshold ≤ (eligible mgr exclude).length) :
    ∃ S l, collect_threshold_shares mgr exclude = some S ∧ S.isEmpty = false ∧
      interpolate (castPoints S) = some l ∧ toPoly l = toPoly F ∧
      l.getD 0 0 = F.getD 0 0 := by
  obtain ⟨h1, h2, h3, _⟩ :=
    interp_pairs F (((eligible mgr exclude).take mgr.threshold).map fun m =>
        (m.id, m.share))
      (by rw [List.length_map, length_take_eligible mgr exclude hq, hF])
      (by rw [hF]; exact ht)
      (by
        rw [List.map_map]
        exact hids.1.sublist
          ((take_eligible_sublist mgr exclude mgr.threshold).map Member.id))
      (by
        intro q hqm
        obtain ⟨m, hm, rfl⟩ := List.mem_map.1 hqm
        exact hids.2 m (mem_take_eligible hm).1)
      (by
        intro q hqm
        obtain ⟨m, hm, rfl⟩ := List.mem_map.1 hqm
        exact hon m (mem_take_eligible hm).1 (mem_take_eligible hm).2.1)
  refine ⟨_, _, collect_eq_some mgr exclude ht hq, ?_, h1, h2, h3⟩
  have hlenS : (((eligible mgr exclude).take mgr.threshold).map fun m =>
      (m.id, m.share)).length = mgr.threshold := by
    rw [List.length_map, length_take_eligible mgr exclude hq]
  rcases hE : ((eligible mgr exclude).take mgr.threshold).map fun m =>
      (m.id, m.share) with _ | ⟨q, S'⟩
  · rw [hE] at hlenS
    simp only [List.length_nil] at hlenS
    omega
  · rw [hE]
    rfl

theorem evaluate_at_zero (l : List (ZMod p)) : evaluate l 0 = l.getD 0 0 := by
  rw [evaluate_eq_eval, ← Polynomial.coeff_zero_eq_eval_zero, coeff_toPoly]

theorem ptX_eq_get (points : List (ZMod p × ZMod p)) {a : ℕ}
    (ha : a < points.length) : ptX points a = (points.get ⟨a, ha⟩).1 := by
  rw [ptX, List.getD_eq_getElem _ _ ha, List.get_eq_getElem]

theorem ptY_eq_get (points : List (ZMod p × ZMod p)) {a : ℕ}
    (ha : a < points.length) : ptY points a = (points.get ⟨a, ha⟩).2 := by
  rw [ptY, List.getD_eq_getElem _ _ ha, List.get_eq_getElem]

theorem nodup_fst_iff_distinctX (points : List (ZMod p × ZMod p)) :
    (points.map Prod.fst).Nodup ↔ DistinctX points := by
  rw [List.Nodup, List.pairwise_iff_getElem]
  constructor
  · intro h a b ha hb hab
    rw [ptX_eq_get points ha, ptX_eq_get points hb]
    rcases Nat.lt_or_ge a b with hlt | hge
    · have h2 := h a b (by simpa using ha) (by simpa using hb) hlt
      rw [List.getElem_map, List.getElem_map] at h2
      simpa [List.get_eq_getElem] using h2
    · have hlt : b < a := lt_of_le_of_ne hge (Ne.symm hab)
      have h2 := h b a (by simpa using hb) (by simpa using ha) hlt
      rw [List.getElem_map, List.getElem_map] at h2
      intro hx
      exact h2 (by simpa [List.get_eq_getElem] using hx.symm)
  · intro h i j hi hj hij
    rw [List.getElem_map, List.getElem_map]
    have h2 := h i j (by simpa using hi) (by simpa using hj) (Nat.ne_of_lt hij)
    rw [ptX_eq_get points (by simpa using hi), ptX_eq_get points (by simpa using hj)]
      at h2
    simpa [List.get_eq_getElem] using h2

theorem list_eq_of_toPoly_eq (l₁ l₂ : List (ZMod p)) (hlen : l₁.length = l₂.length)
    (h : toPoly l₁ = toPoly l₂) : l₁ = l₂ := by
  apply List.ext_getElem hlen
  intro i h1 h2
  have hc := congrArg (fun q => Polynomial.coeff q i) h
  simp only at hc
  rw [coeff_toPoly, coeff_toPoly, List.getD_eq_getElem _ _ h1,
    List.getD_eq_getElem _ _ h2] at hc
  exact hc

theorem find_eq_of_nodup_ids {l : List (Member p)}
    (hnd : (l.map Member.id).Nodup) {mm : Member p} (hm : mm ∈ l) :
    l.find? (fun m => m.id == mm.id) = some mm := by
  induction l with
  | nil => cases hm
  | cons a l ih =>
    rw [List.map_cons, List.nodup_cons] at hnd
    rcases List.mem_cons.1 hm with rfl | hm'
    · exact List.find?_cons_of_pos _ (by simp)
    · have hne : a.id ≠ mm.id := fun h =>
        hnd.1 (h ▸ List.mem_map_of_mem Member.id hm')
      rw [List.find?_cons_of_neg _ (by simpa using hne)]
      exact ih hnd.2 hm'

theorem length_filterMap_of_isSome {α β : Type} (f : α → Option β) :
    ∀ l : List α, (∀ x ∈ l, (f x).isSome = true) →
      (l.filterMap f).length = l.length := by
  intro l
  induction l with
  | nil => intro _; rfl
  | cons a l ih =>
    intro h
    obtain ⟨b, hb⟩ := Option.isSome_iff_exists.1 (h a (List.mem_cons_self a l))
    rw [List.filterMap_cons, hb, List.length_cons,
      ih fun x hx => h x (List.mem_cons_of_mem _ hx), List.length_cons]

theorem filterMap_eq_map_of_some {α β : Type} (f : α → Option β) (g : α → β) :
    ∀ l : List α, (∀ x ∈ l, f x = some (g x)) → l.filterMap f = l.map g := by
  intro l
  induction l with
  | nil => intro _; rfl
  | cons a l ih =>
    intro h
    rw [List.filterMap_cons, h a (List.mem_cons_self a l), List.map_cons,
      ih fun x hx => h x (List.mem_cons_of_mem _ hx)]

theorem length_filterMap_lt_of_none {α β : Type} (f : α → Option β) :
    ∀ (l : List α) (x : α), x ∈ l → f x = none →
      (l.filterMap f).length < l.length := by
  intro l
  induction l with
  | nil => intro x hx; cases hx
  | cons a l ih =>
    intro x hx hfx
    rcases List.mem_cons.1 hx with rfl | hx'
    · rw [List.filterMap_cons, hfx, List.length_cons]
      exact Nat.lt_succ_of_le (List.length_filterMap_le f l)
    · rw [List.filterMap_cons, List.length_cons]
      rcases hfa : f a with _ | b
      · exact Nat.lt_succ_of_lt (ih x hx' hfx)
      · rw [List.length_cons]
        exact Nat.succ_lt_succ (ih x hx' hfx)

theorem mem_setup_members {t n : ℕ} {s : ZMod p} {rand : List (ZMod p)}
    {m : Member p} (hm : m ∈ (setup_initial_shares t s rand n (p := p)).members) :
    1 ≤ m.id ∧ m.id ≤ n ∧ m.is_active = true ∧
      m.share = evaluate (s :: rand) (m.id : ZMod p) := by
  simp only [setup_initial_shares] at hm
  obtain ⟨i, hi, rfl⟩ := List.mem_map.1 hm
  have hr := List.mem_range'_1.1 hi
  have h2 : i ≤ n := by omega
  exact ⟨hr.1, h2, rfl, rfl⟩

theorem setup_ids_nodup (t n : ℕ) (s : ZMod p) (rand : List (ZMod p)) :
    (((setup_initial_shares t s rand n (p := p)).members.map Member.id)).Nodup := by
  have he : (setup_initial_shares t s rand n (p := p)).members.map Member.id =
      List.range' 1 n := by
    simp [setup_initial_shares, List.map_map, Function.comp_def]
  rw [he]
  exact List.nodup_range' _ _

theorem setup_goodIds (t n : ℕ) (s : ZMod p) (rand : List (ZMod p)) (hn : n < p) :
    GoodIds (setup_initial_shares t s rand n (p := p)) :=
  ⟨setup_ids_nodup t n s rand, fun m hm =>
    lt_of_le_of_lt (mem_setup_members hm).2.1 hn⟩

theorem setup_sharesOn (t n : ℕ) (s : ZMod p) (rand : List (ZMod p)) :
    SharesOn (setup_initial_shares t s rand n (p := p)) (s :: rand) :=
  fun m hm _ => (mem_setup_members hm).2.2.2

/-- Successful `add_member` run: no duplicate id and a full quorum available.
The new member gets share `F(new_member_id)` on the *current* sharing
polynomial and is appended to the registry; nothing else changes. -/
theorem add_member_success [Fact p.Prime] (mgr : KeyManager p)
    (new_member_id : ℕ) (F : List (ZMod p)) (hF : F.length = mgr.threshold)
    (ht : 0 < mgr.threshold) (hon : SharesOn mgr F) (hids : GoodIds mgr)
    (hnew : ∀ m ∈ mgr.members, m.id ≠ new_member_id)
    (hq : mgr.threshold ≤ (eligible mgr []).length) :
    add_member mgr new_member_id =
      (some
        { id := new_member_id,
          share := evaluate F (new_member_id : ZMod p),
          public_key := evaluate F (new_member_id : ZMod p) ^ 2,
          is_active := true },
        { mgr with
          members := mgr.members ++
            [{ id := new_member_id,
               share := evaluate F (new_member_id : ZMod p),
               public_key := evaluate F (new_member_id : ZMod p) ^ 2,
               is_active := true }],
          active_member_count := mgr.active_member_count + 1 }) := by
  obtain ⟨S, l, hS, hSne, hI, hPoly, hC0⟩ :=
    collect_interp mgr [] F hF ht hon hids hq
  have hany : (mgr.members.any fun m => m.id == new_member_id) = false := by
    rw [List.any_eq_false]
    intro m hm
    simpa using hnew m hm
  have hev : evaluate l (new_member_id : ZMod p) =
      evaluate F (new_member_id : ZMod p) := by
    rw [evaluate_eq_eval, evaluate_eq_eval, hPoly]
  rw [add_member, if_neg (by rw [hany]; exact Bool.false_ne_true), hS]
  simp only [hSne, Bool.false_eq_true, if_false, hI, hev]

/-- Successful `remove_member` run: the departing id is an active member and
`t` other active members exist.  The result is the literal two-phase update:
all other active members' shares are refreshed onto the polynomial
`F[0] :: rand` (same secret, fresh higher coefficients), then the departing
member is flagged inactive, keeping its old share. -/
theorem remove_member_success [Fact p.Prime] (mgr : KeyManager p)
    (member_id : ℕ) (rand : List (ZMod p)) (F : List (ZMod p))
    (hF : F.length = mgr.threshold) (ht : 0 < mgr.threshold)
    (hon : SharesOn mgr F) (hids : GoodIds mgr)
    (mm : Member p) (hmm : mm ∈ mgr.members) (hmid : mm.id = member_id)
    (hact : mm.is_active = true)
    (hq : mgr.threshold ≤ (eligible mgr [member_id]).length) :
    remove_member mgr member_id rand =
      (true,
        { mgr with
          members :=
            (mgr.members.map fun mem =>
                if mem.id != member_id && mem.is_active then
                  { mem with
                    share := evaluate (F.getD 0 0 :: rand) (mem.id : ZMod p),
                    public_key :=
                      evaluate (F.getD 0 0 :: rand) (mem.id : ZMod p) ^ 2 }
                else mem).map fun mem =>
              if mem.id == member_id then { mem with is_active := false }
              else mem,
          active_member_count := mgr.active_member_count - 1 }) := by
  obtain ⟨S, l, hS, hSne, hI, hPoly, hC0⟩ :=
    collect_interp mgr [member_id] F hF ht hon hids hq
  have hfind : mgr.members.find? (fun m => m.id == member_id) = some mm := by
    rw [← hmid]
    exact find_eq_of_nodup_ids hids.1 hmm
  rw [remove_member, hfind]
  simp only [hact, Bool.not_true, Bool.false_eq_true, if_false, hS, hSne, hI, hC0]

/-- The pair `sign_message` builds for an eligible signer id (the share is
read off the registry through `find?`). -/
def signerPair (mgr : KeyManager p) (sid : ℕ) : ℕ × ZMod p :=
  (sid, ((mgr.members.find? fun m => m.id == sid).map Member.share).getD 0)

/-- Successful `sign_message` run: when the first `threshold` listed signers
are distinct active member ids, the signature is the hash raised to the
recovered secret `F[0]`. -/
theorem sign_message_success [Fact p.Prime] (mgr : KeyManager p)
    (msg_hash : ℕ) (signers : List ℕ) (F : List (ZMod p))
    (hF : F.length = mgr.threshold) (ht : 0 < mgr.threshold)
    (hon : SharesOn mgr F) (hids : GoodIds mgr)
    (hlen : mgr.threshold ≤ signers.length)
    (hact : ∀ sid ∈ signers.take mgr.threshold,
      ∃ m ∈ mgr.members, m.id = sid ∧ m.is_active = true)
    (hnd : (signers.take mgr.threshold).Nodup) :
    sign_message mgr msg_hash signers =
      some ((msg_hash : ZMod p) ^ (F.getD 0 0).val) := by
  have hsome : ∀ sid ∈ signers.take mgr.threshold,
      (match mgr.members.find? fun m => m.id == sid with
        | some m => if m.is_active then some (sid, m.share) else none
        | none => none) = some (signerPair mgr sid) := by
    intro sid hsid
    obtain ⟨m, hm, hid, hma⟩ := hact sid hsid
    have hfind : mgr.members.find? (fun m' => m'.id == sid) = some m := by
      rw [← hid]
      exact find_eq_of_nodup_ids hids.1 hm
    rw [hfind]
    simp [signerPair, hfind, hma]
  have hshares : (signers.take mgr.threshold).filterMap
      (fun sid =>
        match mgr.members.find? fun m => m.id == sid with
        | some m => if m.is_active then some (sid, m.share) else none
        | none => none) =
      (signers.take mgr.threshold).map (signerPair mgr) :=
    filterMap_eq_map_of_some _ _ _ hsome
  have hlen_take : (signers.take mgr.threshold).length = mgr.threshold :=
    List.length_take_of_le hlen
  obtain ⟨hI, hPoly, hC0, _⟩ :=
    interp_pairs F ((signers.take mgr.threshold).map (signerPair mgr))
      (by rw [List.length_map, hlen_take, hF])
      (by rw [hF]; exact ht)
      (by
        rw [List.map_map]
        have : (Prod.fst ∘ signerPair mgr) = fun sid => sid := rfl
        rw [this]
        simpa using hnd)
      (by
        intro q hq
        obtain ⟨sid, hsid, rfl⟩ := List.mem_map.1 hq
        obtain ⟨m, hm, hid, _⟩ := hact sid hsid
        have : (signerPair mgr sid).1 = sid := rfl
        rw [this, ← hid]
        exact hids.2 m hm)
      (by
        intro q hq
        obtain ⟨sid, hsid, rfl⟩ := List.mem_map.1 hq
        obtain ⟨m, hm, hid, hma⟩ := hact sid hsid
        have hfind : mgr.members.find? (fun m' => m'.id == sid) = some m := by
          rw [← hid]
          exact find_eq_of_nodup_ids hids.1 hm
        have h1 : (signerPair mgr sid).2 = m.share := by
          rw [signerPair, hfind]
          rfl
        have h2 : (signerPair mgr sid).1 = sid := rfl
        rw [h1, h2, ← hid]
        exact hon m hm hma)
  rw [sign_message, if_neg (Nat.not_lt.2 hlen)]
  simp only [hshares, List.length_map, hlen_take, lt_irrefl, if_false, hI, hC0]

/-- First phase of the `remove_member` loop body (refresh an active,
non-departing member's share onto the reshare polynomial `nc`). -/
def reshareUpdate (member_id : ℕ) (nc : List (ZMod p)) (mem : Member p) :
    Member p :=
  if mem.id != member_id && mem.is_active then
    { mem with
      share := evaluate nc (mem.id : ZMod p),
      public_key := evaluate nc (mem.id : ZMod p) ^ 2 }
  else mem

/-- Second phase of `remove_member` (flag the departing member inactive). -/
def deactivateUpdate (member_id : ℕ) (mem : Member p) : Member p :=
  if mem.id == member_id then { mem with is_active := false } else mem

/-- `remove_member_success`, restated with the two phases fused into one
pointwise registry update. -/
theorem remove_member_success_fused [Fact p.Prime] (mgr : KeyManager p)
    (member_id : ℕ) (rand : List (ZMod p)) (F : List (ZMod p))
    (hF : F.length = mgr.threshold) (ht : 0 < mgr.threshold)
    (hon : SharesOn mgr F) (hids : GoodIds mgr)
    (mm : Member p) (hmm : mm ∈ mgr.members) (hmid : mm.id = member_id)
    (hact : mm.is_active = true)
    (hq : mgr.threshold ≤ (eligible mgr [member_id]).length) :
    remove_member mgr member_id rand =
      (true,
        { mgr with
          members := mgr.members.map fun m0 =>
            deactivateUpdate member_id
              (reshareUpdate member_id (F.getD 0 0 :: rand) m0),
          active_member_count := mgr.active_member_count - 1 }) := by
  rw [remove_member_success mgr member_id rand F hF ht hon hids mm hmm hmid
    hact hq, List.map_map]
  rfl

theorem update_of_departing {member_id : ℕ} {nc : List (ZMod p)}
    {m0 : Member p} (h : m0.id = member_id) :
    deactivateUpdate member_id (reshareUpdate member_id nc m0) =
      { m0 with is_active := false } := by
  simp [reshareUpdate, deactivateUpdate, h]

theorem update_of_active {member_id : ℕ} {nc : List (ZMod p)} {m0 : Member p}
    (h : m0.id ≠ member_id) (ha : m0.is_active = true) :
    deactivateUpdate member_id (reshareUpdate member_id nc m0) =
      { m0 with
        share := evaluate nc (m0.id : ZMod p),
        public_key := evaluate nc (m0.id : ZMod p) ^ 2 } := by
  simp [reshareUpdate, deactivateUpdate, h, ha]

theorem update_of_inactive {member_id : ℕ} {nc : List (ZMod p)} {m0 : Member p}
    (h : m0.id ≠ member_id) (ha : m0.is_active = false) :
    deactivateUpdate member_id (reshareUpdate member_id nc m0) = m0 := by
  simp [reshareUpdate, deactivateUpdate, h, ha]

theorem update_id (member_id : ℕ) (nc : List (ZMod p)) (m0 : Member p) :
    (deactivateUpdate member_id (reshareUpdate member_id nc m0)).id = m0.id := by
  rcases Nat.decEq m0.id member_id with h | h
  · rcases hb : m0.is_active with _ | _
    · rw [update_of_inactive h hb]
    · rw [update_of_active h hb]
  · rw [update_of_departing h]

/-- **C2.**  For all valid `(t, n)` with `1 ≤ t ≤ n < p`: after setup,
interpolating the `(id, share)` pairs of any `t` distinct initial members
yields the master secret as constant term — so every `t`-subset agrees
with every other `t`-subset. -/
theorem setup_any_quorum_recovers_secret [Fact p.Prime] (t n : ℕ)
    (s : ZMod p) (rand : List (ZMod p)) (hrand : rand.length = t - 1)
    (ht : 1 ≤ t) (htn : t ≤ n) (hn : n < p) (sel : List (Member p))
    (hsel : ∀ m ∈ sel, m ∈ (setup_initial_shares t s rand n (p := p)).members)
    (hlen : sel.length = t) (hnd : (sel.map Member.id).Nodup) :
    ∃ l, interpolate (castPoints (sel.map fun m => (m.id, m.share))) = some l ∧
      l.getD 0 0 = (setup_initial_shares t s rand n (p := p)).master_secret := by
  have hFlen : (s :: rand).length = t := by
    rw [List.length_cons, hrand]
    omega
  obtain ⟨l, h1, _, h3, _⟩ := interp_members (s :: rand) sel
    (by rw [hlen, hFlen]) (by rw [hFlen]; exact ht) hnd
    (fun m hm => lt_of_le_of_lt (mem_setup_members (hsel m hm)).2.1 hn)
    (fun m hm => (mem_setup_members (hsel m hm)).2.2.2)
  exact ⟨l, h1, by rw [h3]; rfl⟩

/-- **C1.**  When at least `t` members other than the departing one are
active, a successful `remove_member` replaces the sharing polynomial by
`F[0] :: rand`: same constant term (the master secret), fresh higher
coefficients.  Every surviving active member's refreshed share lies on the
new polynomial, the new polynomial agrees with the old one at `0`, and
interpolating any `t` refreshed active shares still recovers the original
secret `F[0]`. -/
theorem remove_member_reshare_preserves_secret [Fact p.Prime]
    (mgr : KeyManager p) (member_id : ℕ) (rand : List (ZMod p))
    (F : List (ZMod p)) (hF : F.length = mgr.threshold)
    (ht : 0 < mgr.threshold) (hrand : rand.length = mgr.threshold - 1)
    (hon : SharesOn mgr F) (hids : GoodIds mgr)
    (mm : Member p) (hmm : mm ∈ mgr.members) (hmid : mm.id = member_id)
    (hma : mm.is_active = true)
    (hq : mgr.threshold ≤ (eligible mgr [member_id]).length) :
    (remove_member mgr member_id rand).1 = true ∧
    SharesOn (remove_member mgr member_id rand).2 (F.getD 0 0 :: rand) ∧
    evaluate (F.getD 0 0 :: rand) 0 = evaluate F 0 ∧
    ∀ sel : List (Member p),
      (∀ m ∈ sel, m ∈ (remove_member mgr member_id rand).2.members ∧
        m.is_active = true) →
      sel.length = mgr.threshold → (sel.map Member.id).Nodup →
      ∃ l, interpolate (castPoints (sel.map fun m => (m.id, m.share))) = some l ∧
        l.getD 0 0 = F.getD 0 0 := by
  have hrem := remove_member_success_fused mgr member_id rand F hF ht hon hids
    mm hmm hmid hma hq
  have hF'len : (F.getD 0 0 :: rand).length = mgr.threshold := by
    rw [List.length_cons, hrand]
    omega
  have hon' : SharesOn (remove_member mgr member_id rand).2
      (F.getD 0 0 :: rand) := by
    rw [hrem]
    intro m' hm' hact'
    obtain ⟨m0, hm0, rfl⟩ := List.mem_map.1 hm'
    by_cases hd : m0.id = member_id
    · rw [update_of_departing hd] at hact'
      simp at hact'
    · rcases hb : m0.is_active with _ | _
      · rw [update_of_inactive hd hb] at hact'
        rw [hact'] at hb
        cases hb
      · rw [update_of_active hd hb]
  have hidpres : ∀ m' ∈ (remove_member mgr member_id rand).2.members,
      ∃ m0 ∈ mgr.members, m'.id = m0.id := by
    rw [hrem]
    intro m' hm'
    obtain ⟨m0, hm0, rfl⟩ := List.mem_map.1 hm'
    exact ⟨m0, hm0, update_id member_id _ m0⟩
  refine ⟨by rw [hrem], hon', ?_, ?_⟩
  · rw [evaluate_at_zero, evaluate_at_zero]
    rfl
  · intro sel hsel hlen hnd
    obtain ⟨l, h1, _, h3, _⟩ := interp_members (F.getD 0 0 :: rand) sel
      (by rw [hlen, hF'len]) (by rw [hF'len]; exact ht) hnd
      (fun m hm => by
        obtain ⟨m0, hm0, hid⟩ := hidpres m (hsel m hm).1
        rw [hid]
        exact hids.2 m0 hm0)
      (fun m hm => hon' m (hsel m hm).1 (hsel m hm).2)
    exact ⟨l, h1, by rw [h3, List.getD_cons_zero]⟩

/-- **C5.**  After a successful `add_member(new_id)` the new member's stored
share equals `F(new_id)` on the current sharing polynomial: interpolating
the new pair with any `t - 1` other active members' pairs yields the secret
`F[0]`, the same constant term as any quorum of `t` pre-existing active
members. -/
theorem add_member_share_on_current_polynomial [Fact p.Prime]
    (mgr : KeyManager p) (new_member_id : ℕ) (F : List (ZMod p))
    (hF : F.length = mgr.threshold) (ht : 0 < mgr.threshold)
    (hon : SharesOn mgr F) (hids : GoodIds mgr)
    (hnew : ∀ m ∈ mgr.members, m.id ≠ new_member_id)
    (hltnew : new_member_id < p)
    (hq : mgr.threshold ≤ (eligible mgr []).length) :
    ∃ member mgr', add_member mgr new_member_id = (some member, mgr') ∧
      member.id = new_member_id ∧ member.is_active = true ∧
      member.share = evaluate F (new_member_id : ZMod p) ∧
      mgr'.members = mgr.members ++ [member] ∧
      (∀ sel : List (Member p),
        (∀ m ∈ sel, m ∈ mgr.members ∧ m.is_active = true) →
        sel.length = mgr.threshold - 1 → (sel.map Member.id).Nodup →
        ∃ l, interpolate (castPoints ((member.id, member.share) ::
            sel.map fun m => (m.id, m.share))) = some l ∧
          l.getD 0 0 = F.getD 0 0) ∧
      (∀ sel : List (Member p),
        (∀ m ∈ sel, m ∈ mgr.members ∧ m.is_active = true) →
        sel.length = mgr.threshold → (sel.map Member.id).Nodup →
        ∃ l, interpolate (castPoints (sel.map fun m => (m.id, m.share))) =
            some l ∧
          l.getD 0 0 = F.getD 0 0) := by
  refine ⟨_, _,
    add_member_success mgr new_member_id F hF ht hon hids hnew hq,
    rfl, rfl, rfl, rfl, ?_, ?_⟩
  · intro sel hsel hlen hnd
    obtain ⟨h1, _, h3, _⟩ := interp_pairs F
      ((new_member_id, evaluate F (new_member_id : ZMod p)) ::
        sel.map fun m => (m.id, m.share))
      (by
        rw [List.length_cons, List.length_map, hlen, hF]
        omega)
      (by rw [hF]; exact ht)
      (by
        rw [List.map_cons, List.map_map]
        refine List.nodup_cons.2 ⟨?_, by rw [show ((Prod.fst ∘ fun m :
          Member p => (m.id, m.share))) = Member.id from rfl]; exact hnd⟩
        intro hmem
        obtain ⟨m, hm, hmid⟩ := List.mem_map.1 hmem
        exact hnew m (hsel m hm).1 hmid)
      (by
        intro q hq'
        rcases List.mem_cons.1 hq' with rfl | hq''
        · exact hltnew
        · obtain ⟨m, hm, rfl⟩ := List.mem_map.1 hq''
          exact hids.2 m (hsel m hm).1)
      (by
        intro q hq'
        rcases List.mem_cons.1 hq' with rfl | hq''
        · rfl
        · obtain ⟨m, hm, rfl⟩ := List.mem_map.1 hq''
          exact hon m (hsel m hm).1 (hsel m hm).2)
    exact ⟨_, h1, h3⟩
  · intro sel hsel hlen hnd
    obtain ⟨l, h1, _, h3, _⟩ := interp_members F sel (by rw [hlen, hF])
      (by rw [hF]; exact ht) hnd
      (fun m hm => hids.2 m (hsel m hm).1)
      (fun m hm => hon m (hsel m hm).1 (hsel m hm).2)
    exact ⟨l, h1, h3⟩

/-- **C9.**  `add_member` never validates that the new id is a nonzero
positive integer: whenever `0` is not yet a member id and a quorum exists,
`add_member 0` succeeds and stores `F(0)` — the master secret itself — as
the new member's share. -/
theorem add_member_zero_id_receives_secret [Fact p.Prime]
    (mgr : KeyManager p) (F : List (ZMod p)) (hF : F.length = mgr.threshold)
    (ht : 0 < mgr.threshold) (hon : SharesOn mgr F) (hids : GoodIds mgr)
    (hzero : ∀ m ∈ mgr.members, m.id ≠ 0)
    (hq : mgr.threshold ≤ (eligible mgr []).length) :
    ∃ member mgr', add_member mgr 0 = (some member, mgr') ∧
      member.id = 0 ∧ member.is_active = true ∧
      member.share = F.getD 0 0 ∧ member.share = evaluate F (0 : ZMod p) ∧
      mgr'.members = mgr.members ++ [member] := by
  refine ⟨_, _, add_member_success mgr 0 F hF ht hon hids hzero hq,
    rfl, rfl, ?_, ?_, rfl⟩
  · show evaluate F ((0 : ℕ) : ZMod p) = F.getD 0 0
    rw [Nat.cast_zero, evaluate_at_zero]
  · show evaluate F ((0 : ℕ) : ZMod p) = evaluate F 0
    rw [Nat.cast_zero]

/-- **C4.**  Sign-then-verify round-trip: for every hash value and every
list of `t` distinct active member ids of a manager whose sharing
polynomial's constant term is the stored master secret, signing succeeds
and the signature verifies, because the secret interpolated from the quorum
equals `master_secret`. -/
theorem sign_then_verify_roundtrip [Fact p.Prime] (mgr : KeyManager p)
    (msg_hash : ℕ) (signers : List ℕ) (F : List (ZMod p))
    (hF : F.length = mgr.threshold) (ht : 0 < mgr.threshold)
    (hon : SharesOn mgr F) (hids : GoodIds mgr)
    (hsec : F.getD 0 0 = mgr.master_secret)
    (hslen : signers.length = mgr.threshold) (hnd : signers.Nodup)
    (hact : ∀ sid ∈ signers, ∃ m ∈ mgr.members, m.id = sid ∧
      m.is_active = true) :
    ∃ sig, sign_message mgr msg_hash signers = some sig ∧
      verify_signature mgr msg_hash sig = true := by
  have htake : signers.take mgr.threshold = signers :=
    List.take_of_length_le (le_of_eq hslen)
  refine ⟨_, sign_message_success mgr msg_hash signers F hF ht hon hids
    (le_of_eq hslen.symm) (by rw [htake]; exact hact)
    (by rw [htake]; exact hnd), ?_⟩
  rw [verify_signature, hsec]
  exact beq_self_eq_true _

/-- **C10.**  `add_member` and `remove_member` are atomic on failure: every
failing run returns the `KeyManager` state unchanged in all components. -/
theorem membership_ops_atomic_on_failure (mgr : KeyManager p)
    (memberId : ℕ) (rand : List (ZMod p)) :
    ((add_member mgr memberId).1 = none → (add_member mgr memberId).2 = mgr) ∧
    ((remove_member mgr memberId rand).1 = false →
      (remove_member mgr memberId rand).2 = mgr) := by
  constructor
  · intro h
    by_cases h1 : (mgr.members.any fun m => m.id == memberId) = true
    · simp [add_member, h1]
    · rcases h2 : collect_threshold_shares mgr [] with _ | S
      · simp [add_member, h1, h2]
      · by_cases h3 : S.isEmpty = true
        · simp [add_member, h1, h2, h3]
        · rcases h4 : interpolate (castPoints S) with _ | l
          · simp [add_member, h1, h2, h3, h4]
          · exfalso
            simp [add_member, h1, h2, h3, h4] at h
  · intro h
    rcases hf : mgr.members.find? (fun m => m.id == memberId) with _ | m
    · simp [remove_member, hf]
    · rcases hA : m.is_active with _ | _
      · simp [remove_member, hf, hA]
      · rcases h2 : collect_threshold_shares mgr [memberId] with _ | S
        · simp [remove_member, hf, hA, h2]
        · by_cases h3 : S.isEmpty = true
          · simp [remove_member, hf, hA, h2, h3]
          · rcases h4 : interpolate (castPoints S) with _ | l
            · simp [remove_member, hf, hA, h2, h3, h4]
            · exfalso
              simp [remove_member, hf, hA, h2, h3, h4] at h

/-- **C7 (amended).**  `Polynomial.interpolate` performs no arity check
against the threshold: it fails — with the `ValueError` raised by
`pow(denominator, -1, prime)`, modelled as `none` — exactly when two
supplied points share an `x`-coordinate.  Any list of points with distinct
`x`-coordinates, however short, produces an ordinary coefficient-list
result. -/
theorem interpolate_fails_iff_duplicate_x [Fact p.Prime]
    (points : List (ZMod p × ZMod p)) :
    interpolate points = none ↔ ¬ (points.map Prod.fst).Nodup := by
  rw [nodup_fst_iff_distinctX]
  constructor
  · intro hnone hdist
    rw [interpolate_eq_some points
      (fun i hi => denomOf_ne_zero points hi hdist)] at hnone
    cases hnone
  · intro hdist
    rw [DistinctX] at hdist
    push_neg at hdist
    obtain ⟨a, b, ha, hb, hab, heq⟩ := hdist
    apply interpolate_eq_none
    refine ⟨a, ha, ?_⟩
    rw [denomOf_eq]
    apply List.prod_eq_zero
    refine List.mem_map.2 ⟨b, (mem_otherIdx _ _ _).2 ⟨hb, Ne.symm hab⟩, ?_⟩
    rw [heq, sub_self]

/-- **C8.**  `Polynomial.interpolate` is invariant under permutation of its
input: on any two orderings of the same distinct-`x` point set it returns
the identical coefficient list. -/
theorem interpolate_perm_invariant [Fact p.Prime]
    (pts₁ pts₂ : List (ZMod p × ZMod p)) (hperm : pts₁.Perm pts₂)
    (hnd : (pts₁.map Prod.fst).Nodup) :
    ∃ l, interpolate pts₁ = some l ∧ interpolate pts₂ = some l := by
  by_cases h0 : pts₁.length = 0
  · have he1 : pts₁ = [] := List.length_eq_zero.1 h0
    rw [he1] at hperm
    have he2 : pts₂ = [] := hperm.symm.eq_nil
    rw [he1, he2]
    exact ⟨[0], rfl, rfl⟩
  · have h0' : 0 < pts₁.length := Nat.pos_of_ne_zero h0
    have hx₁ : DistinctX pts₁ := (nodup_fst_iff_distinctX pts₁).1 hnd
    have hnd₂ : (pts₂.map Prod.fst).Nodup := ((hperm.map Prod.fst).nodup_iff).1 hnd
    have hx₂ : DistinctX pts₂ := (nodup_fst_iff_distinctX pts₂).1 hnd₂
    have hlen := hperm.length_eq
    have h0₂ : 0 < pts₂.length := hlen ▸ h0'
    have hs₁ : interpolate pts₁ = some (interpBody pts₁) :=
      interpolate_eq_some _ fun i hi => denomOf_ne_zero _ hi hx₁
    have hs₂ : interpolate pts₂ = some (interpBody pts₂) :=
      interpolate_eq_some _ fun i hi => denomOf_ne_zero _ hi hx₂
    have hdeg : (toPoly (interpBody pts₁)).degree < (pts₂.length : WithBot ℕ) := by
      have h := degree_toPoly_lt (interpBody pts₁)
      rwa [length_interpBody pts₁ h0', hlen] at h
    have hev : ∀ k, k < pts₂.length →
        (toPoly (interpBody pts₁)).eval (ptX pts₂ k) = ptY pts₂ k := by
      intro k hk
      have hmem : pts₂.get ⟨k, hk⟩ ∈ pts₁ :=
        hperm.symm.subset (List.get_mem _ _ _)
      obtain ⟨i, hi⟩ := List.mem_iff_get.1 hmem
      rw [ptX_eq_get pts₂ hk, ptY_eq_get pts₂ hk, ← hi,
        ← ptX_eq_get pts₁ i.isLt, ← ptY_eq_get pts₁ i.isLt]
      exact eval_interpBody pts₁ i.isLt hx₁
    have heq : toPoly (interpBody pts₂) = toPoly (interpBody pts₁) :=
      toPoly_interpBody_eq pts₂ h0₂ hx₂ _ hdeg hev
    have hleneq : (interpBody pts₂).length = (interpBody pts₁).length := by
      rw [length_interpBody pts₁ h0', length_interpBody pts₂ h0₂, hlen]
    exact ⟨interpBody pts₁, hs₁, by
      rw [hs₂, list_eq_of_toPoly_eq _ _ hleneq heq]⟩

/-- **C6 (amended).**  `sign_message` fails when fewer than `threshold`
signer ids are given; otherwise it keeps, of the *first `threshold` listed*
signers (`signers[:threshold]`), those that are active members, and fails
if fewer than `threshold` of them qualify.  It therefore succeeds on a list
whose first `threshold` entries are distinct active member ids — but a list
that merely contains `threshold` active ids beyond the first `threshold`
positions still fails (see the counterexample). -/
theorem sign_message_quorum_spec [Fact p.Prime] (mgr : KeyManager p)
    (msg_hash : ℕ) (signers : List ℕ) (F : List (ZMod p))
    (hF : F.length = mgr.threshold) (ht : 0 < mgr.threshold)
    (hon : SharesOn mgr F) (hids : GoodIds mgr) :
    (signers.length < mgr.threshold →
      sign_message mgr msg_hash signers = none) ∧
    ((∃ sid ∈ signers.take mgr.threshold,
        ∀ m ∈ mgr.members, m.id = sid → m.is_active = false) →
      sign_message mgr msg_hash signers = none) ∧
    (mgr.threshold ≤ signers.length →
      (∀ sid ∈ signers.take mgr.threshold,
        ∃ m ∈ mgr.members, m.id = sid ∧ m.is_active = true) →
      (signers.take mgr.threshold).Nodup →
      ∃ sig, sign_message mgr msg_hash signers = some sig) := by
  refine ⟨fun h => by rw [sign_message, if_pos h], ?_, ?_⟩
  · rintro ⟨sid, hsid, hbad⟩
    by_cases hlen : signers.length < mgr.threshold
    · rw [sign_message, if_pos hlen]
    · have hnone : (match mgr.members.find? fun m => m.id == sid with
          | some m => if m.is_active then some (sid, m.share) else none
          | none => none) = (none : Option (ℕ × ZMod p)) := by
        rcases hfind : mgr.members.find? fun m => m.id == sid with _ | m
        · rw [hfind]
        · have hm : m ∈ mgr.members := List.mem_of_find?_eq_some hfind
          have hpred := List.find?_some hfind
          have hinact : m.is_active = false :=
            hbad m hm (by simpa using hpred)
          rw [hfind]
          simp [hinact]
      have hlt : ((signers.take mgr.threshold).filterMap fun sid' =>
          match mgr.members.find? fun m => m.id == sid' with
          | some m => if m.is_active then some (sid', m.share) else none
          | none => none).length < mgr.threshold := by
        have h1 := length_filterMap_lt_of_none
          (fun sid' =>
            match mgr.members.find? fun m => m.id == sid' with
            | some m => if m.is_active then some (sid', m.share) else none
            | none => none)
          (signers.take mgr.threshold) sid hsid hnone
        rwa [List.length_take_of_le (Nat.le_of_not_lt hlen)] at h1
      rw [sign_message, if_neg hlen]
      simp only [hlt, if_pos]
  · intro hlen hact hnd
    exact ⟨_, sign_message_success mgr msg_hash signers F hF ht hon hids
      hlen hact hnd⟩

theorem evaluate_triple (c0 c1 c2 x : ZMod p) :
    evaluate [c0, c1, c2] x = c0 + c1 * x + c2 * (x * x) := by
  simp only [evaluate, evaluateAux]
  ring

theorem distinctX_triple {x0 x1 x2 y0 y1 y2 : ZMod p} (h01 : x0 ≠ x1)
    (h02 : x0 ≠ x2) (h12 : x1 ≠ x2) :
    DistinctX [(x0, y0), (x1, y1), (x2, y2)] := by
  intro a b ha hb hab
  simp only [List.length_cons, List.length_nil] at ha hb
  interval_cases a <;> interval_cases b <;>
    first
      | exact absurd rfl hab
      | exact h01
      | exact h02
      | exact h12
      | exact Ne.symm h01
      | exact Ne.symm h02
      | exact Ne.symm h12

/-- Interpolating three distinct-`x` points that lie on a 3-coefficient
polynomial `H` recovers `H`'s constant term. -/
theorem interpolate_triple [Fact p.Prime] (x0 x1 x2 y0 y1 y2 : ZMod p)
    (h01 : x0 ≠ x1) (h02 : x0 ≠ x2) (h12 : x1 ≠ x2) (H : List (ZMod p))
    (hHlen : H.length = 3) (he0 : evaluate H x0 = y0)
    (he1 : evaluate H x1 = y1) (he2 : evaluate H x2 = y2) :
    ∃ l, interpolate [(x0, y0), (x1, y1), (x2, y2)] = some l ∧
      l.getD 0 0 = H.getD 0 0 := by
  obtain ⟨hs, hp, _⟩ := interpolate_spec [(x0, y0), (x1, y1), (x2, y2)]
    (by simp) (distinctX_triple h01 h02 h12) (toPoly H)
    (by
      have h := degree_toPoly_lt H
      rw [hHlen] at h
      exact h)
    (by
      intro k hk
      simp only [List.length_cons, List.length_nil] at hk
      interval_cases k
      · show (toPoly H).eval x0 = y0
        rw [← evaluate_eq_eval]
        exact he0
      · show (toPoly H).eval x1 = y1
        rw [← evaluate_eq_eval]
        exact he1
      · show (toPoly H).eval x2 = y2
        rw [← evaluate_eq_eval]
        exact he2)
  exact ⟨_, hs, by rw [← coeff_toPoly, hp, coeff_toPoly]⟩

/-- **C3.**  With `t = 3, n = 5` and setup polynomial `F = [s, b1, b2]`,
after `remove_member 2` with fresh coefficients `a1, a2` the registry holds
member 2 inactive with its old share `F(2)` while every surviving active
member carries a share of `G = [s, a1, a2]`.  Interpolating three current
shares (ids 1, 3, 4) recovers the secret `s`; interpolating member 2's
retained pre-removal pair together with two current shares (ids 1, 3) yields
constant term `s` **iff** `G(2) = F(2)` — and that coincidence happens for
exactly `p` of the `p ^ 2` equally likely draws of `(a1, a2)`, i.e. with
probability `1 / p`, negligible at the 256-bit prime size the code uses. -/
theorem removed_share_mixing_diverges [Fact p.Prime] (hp : 5 < p)
    (s b1 b2 : ZMod p) :
    (∀ a1 a2 : ZMod p,
      (remove_member (setup_initial_shares 3 s [b1, b2] 5) 2 [a1, a2]).1 =
        true ∧
      (∃ m2 ∈ (remove_member (setup_initial_shares 3 s [b1, b2] 5) 2
          [a1, a2]).2.members,
        m2.id = 2 ∧ m2.is_active = false ∧
        m2.share = evaluate [s, b1, b2] ((2 : ℕ) : ZMod p)) ∧
      (∀ m ∈ (remove_member (setup_initial_shares 3 s [b1, b2] 5) 2
          [a1, a2]).2.members,
        m.is_active = true →
        m.share = evaluate [s, a1, a2] (m.id : ZMod p)) ∧
      (∃ lt, interpolate
          [(((1 : ℕ) : ZMod p), evaluate [s, a1, a2] ((1 : ℕ) : ZMod p)),
            (((3 : ℕ) : ZMod p), evaluate [s, a1, a2] ((3 : ℕ) : ZMod p)),
            (((4 : ℕ) : ZMod p), evaluate [s, a1, a2] ((4 : ℕ) : ZMod p))] =
          some lt ∧ lt.getD 0 0 = s) ∧
      (∃ lm, interpolate
          [(((2 : ℕ) : ZMod p), evaluate [s, b1, b2] ((2 : ℕ) : ZMod p)),
            (((1 : ℕ) : ZMod p), evaluate [s, a1, a2] ((1 : ℕ) : ZMod p)),
            (((3 : ℕ) : ZMod p), evaluate [s, a1, a2] ((3 : ℕ) : ZMod p))] =
          some lm ∧
        (lm.getD 0 0 = s ↔
          evaluate [s, a1, a2] ((2 : ℕ) : ZMod p) =
            evaluate [s, b1, b2] ((2 : ℕ) : ZMod p)))) ∧
    (Finset.univ.filter fun r : ZMod p × ZMod p =>
        evaluate [s, r.1, r.2] ((2 : ℕ) : ZMod p) =
          evaluate [s, b1, b2] ((2 : ℕ) : ZMod p)).card = p ∧
    Fintype.card (ZMod p × ZMod p) = p ^ 2 := by
  have c21 : ((2 : ℕ) : ZMod p) ≠ ((1 : ℕ) : ZMod p) :=
    natCast_ne_natCast (by omega) (by omega) (by omega)
  have c23 : ((2 : ℕ) : ZMod p) ≠ ((3 : ℕ) : ZMod p) :=
    natCast_ne_natCast (by omega) (by omega) (by omega)
  have c13 : ((1 : ℕ) : ZMod p) ≠ ((3 : ℕ) : ZMod p) :=
    natCast_ne_natCast (by omega) (by omega) (by omega)
  have c14 : ((1 : ℕ) : ZMod p) ≠ ((4 : ℕ) : ZMod p) :=
    natCast_ne_natCast (by omega) (by omega) (by omega)
  have c34 : ((3 : ℕ) : ZMod p) ≠ ((4 : ℕ) : ZMod p) :=
    natCast_ne_natCast (by omega) (by omega) (by omega)
  have three_ne : (3 : ZMod p) ≠ 0 := by
    have h := natCast_ne_natCast (p := p) (a := 3) (b := 0)
      (by omega) (by omega) (by omega)
    simpa using h
  have four_ne : (4 : ZMod p) ≠ 0 := by
    have h := natCast_ne_natCast (p := p) (a := 4) (b := 0)
      (by omega) (by omega) (by omega)
    simpa using h
  refine ⟨?_, ?_, ?_⟩
  · intro a1 a2
    have hF : ([s, b1, b2] : List (ZMod p)).length =
        (setup_initial_shares 3 s [b1, b2] 5 (p := p)).threshold := rfl
    have ht : 0 < (setup_initial_shares 3 s [b1, b2] 5 (p := p)).threshold := by
      show (0 : ℕ) < 3
      omega
    have hon := setup_sharesOn (p := p) 3 5 s [b1, b2]
    have hids := setup_goodIds (p := p) 3 5 s [b1, b2] (by omega)
    have hmm : (⟨2, evaluate (s :: [b1, b2]) ((2 : ℕ) : ZMod p),
        evaluate (s :: [b1, b2]) ((2 : ℕ) : ZMod p) ^ 2, true⟩ : Member p) ∈
        (setup_initial_shares 3 s [b1, b2] 5 (p := p)).members :=
      List.mem_map.2 ⟨2, by decide, rfl⟩
    have hq : (setup_initial_shares 3 s [b1, b2] 5 (p := p)).threshold ≤
        (eligible (setup_initial_shares 3 s [b1, b2] 5) [2]).length := by
      show (3 : ℕ) ≤ _
      simp [eligible, setup_initial_shares,
        show List.range' 1 5 = [1, 2, 3, 4, 5] from rfl]
    have hrem := remove_member_success_fused
      (setup_initial_shares 3 s [b1, b2] 5) 2 [a1, a2] [s, b1, b2]
      hF ht hon hids _ hmm rfl rfl hq
    have hnc : (([s, b1, b2] : List (ZMod p)).getD 0 0 :: [a1, a2]) =
        [s, a1, a2] := rfl
    rw [hnc] at hrem
    refine ⟨by rw [hrem], ?_, ?_, ?_, ?_⟩
    · rw [hrem]
      refine ⟨_, List.mem_map_of_mem _ hmm, ?_⟩
      have hu : deactivateUpdate 2 (reshareUpdate 2 [s, a1, a2]
          (⟨2, evaluate (s :: [b1, b2]) ((2 : ℕ) : ZMod p),
            evaluate (s :: [b1, b2]) ((2 : ℕ) : ZMod p) ^ 2, true⟩ :
            Member p)) =
          ⟨2, evaluate (s :: [b1, b2]) ((2 : ℕ) : ZMod p),
            evaluate (s :: [b1, b2]) ((2 : ℕ) : ZMod p) ^ 2, false⟩ :=
        update_of_departing rfl
      rw [hu]
      exact ⟨rfl, rfl, rfl⟩
    · intro m' hm' hact'
      rw [hrem] at hm'
      obtain ⟨m0, hm0, rfl⟩ := List.mem_map.1 hm'
      by_cases hd : m0.id = 2
      · rw [update_of_departing hd] at hact'
        simp at hact'
      · rcases hb : m0.is_active with _ | _
        · rw [update_of_inactive hd hb] at hact'
          rw [hact'] at hb
          cases hb
        · rw [update_of_active hd hb]
    · obtain ⟨lt, hlt, hc⟩ := interpolate_triple ((1 : ℕ) : ZMod p)
        ((3 : ℕ) : ZMod p) ((4 : ℕ) : ZMod p) _ _ _ c13 c14 c34
        [s, a1, a2] rfl rfl rfl rfl
      exact ⟨lt, hlt, by rw [hc, List.getD_cons_zero]⟩
    · obtain ⟨lm, hlm, hc⟩ := interpolate_triple ((2 : ℕ) : ZMod p)
        ((1 : ℕ) : ZMod p) ((3 : ℕ) : ZMod p)
        (evaluate [s, b1, b2] ((2 : ℕ) : ZMod p))
        (evaluate [s, a1, a2] ((1 : ℕ) : ZMod p))
        (evaluate [s, a1, a2] ((3 : ℕ) : ZMod p)) c21 c23 c13
        [s + 3 * (evaluate [s, a1, a2] ((2 : ℕ) : ZMod p) -
            evaluate [s, b1, b2] ((2 : ℕ) : ZMod p)),
          a1 - 4 * (evaluate [s, a1, a2] ((2 : ℕ) : ZMod p) -
            evaluate [s, b1, b2] ((2 : ℕ) : ZMod p)),
          a2 + (evaluate [s, a1, a2] ((2 : ℕ) : ZMod p) -
            evaluate [s, b1, b2] ((2 : ℕ) : ZMod p))] rfl
        (by
          simp only [evaluate_triple]
          push_cast
          ring)
        (by
          simp only [evaluate_triple]
          push_cast
          ring)
        (by
          simp only [evaluate_triple]
          push_cast
          ring)
      refine ⟨lm, hlm, ?_⟩
      rw [hc, List.getD_cons_zero]
      constructor
      · intro h
        have h3 : (3 : ZMod p) *
            (evaluate [s, a1, a2] ((2 : ℕ) : ZMod p) -
              evaluate [s, b1, b2] ((2 : ℕ) : ZMod p)) = 0 := by
          linear_combination h
        rcases mul_eq_zero.1 h3 with h' | h'
        · exact absurd h' three_ne
        · exact sub_eq_zero.1 h'
      · intro h
        have h0 : evaluate [s, a1, a2] ((2 : ℕ) : ZMod p) -
            evaluate [s, b1, b2] ((2 : ℕ) : ZMod p) = 0 := sub_eq_zero.2 h
        linear_combination (3 : ZMod p) * h0
  · have hcard : ((Finset.univ : Finset (ZMod p))).card = p := by
      rw [Finset.card_univ, ZMod.card]
    refine Eq.trans ?_ hcard
    apply Finset.card_nbij' (i := fun r => r.1)
      (j := fun x => (x,
        (evaluate [s, b1, b2] ((2 : ℕ) : ZMod p) - s - 2 * x) * 4⁻¹))
    · intro a _
      exact Finset.mem_univ _
    · intro x _
      refine Finset.mem_filter.2 ⟨Finset.mem_univ _, ?_⟩
      simp only [evaluate_triple]
      push_cast
      field_simp
      ring
    · intro r hr
      have hcond := (Finset.mem_filter.1 hr).2
      simp only [evaluate_triple] at hcond
      push_cast at hcond
      rw [Prod.ext_iff]
      refine ⟨rfl, ?_⟩
      show (evaluate [s, b1, b2] ((2 : ℕ) : ZMod p) - s - 2 * r.1) * 4⁻¹ = r.2
      simp only [evaluate_triple]
      push_cast
      field_simp
      linear_combination -hcond
    · intro x _
      rfl
  · rw [Fintype.card_prod, ZMod.card, pow_two]

instance : Fact (Nat.Prime 97) := ⟨by norm_num⟩

/-- Concrete test consortium: `p = 97`, `t = 3`, `n = 5`, secret `7`,
sharing polynomial `F = [7, 11, 13]`. -/
def mgrA : KeyManager 97 := setup_initial_shares 3 7 [11, 13] 5

/-- `mgrA` with member 1 flagged inactive (as after a departure), all other
members still on `F = [7, 11, 13]`. -/
def mgrInact : KeyManager 97 :=
  { threshold := 3
    members :=
      [⟨1, 31, 88, false⟩, ⟨2, 81, 62, true⟩, ⟨3, 60, 11, true⟩,
        ⟨4, 65, 54, true⟩, ⟨5, 96, 1, true⟩]
    active_member_count := 4
    master_secret := 7 }

/-- **C6 counterexample.**  The signers list `[1, 2, 3, 4]` contains three
active member ids (2, 3, and 4), yet `sign_message` returns a failure,
because the code only examines `signers[:threshold] = [1, 2, 3]` and id 1
is inactive — refuting the claim that any list containing at least `t`
active ids signs successfully with the first `t` active ids in it. -/
theorem sign_message_ignores_later_active_ids :
    mgrInact.threshold = 3 ∧
    (∀ sid ∈ [2, 3, 4], sid ∈ [1, 2, 3, 4] ∧
      ∃ m ∈ mgrInact.members, m.id = sid ∧ m.is_active = true) ∧
    sign_message mgrInact 5 [1, 2, 3, 4] = none := by decide

/-- **C7 counterexample.**  With threshold `t = 3`, handing `interpolate` a
single point — fewer than `t` distinct points — produces an ordinary
`Polynomial` result (`some …`, here the constant polynomial through the
point), not an error: the function never checks the arity against `t`. -/
theorem interpolate_accepts_fewer_than_threshold_points :
    (1 : ℕ) < 3 ∧ ∃ l, interpolate [((1 : ZMod 97), 5)] = some l := by
  refine ⟨by omega, interpBody _, interpolate_eq_some _ ?_⟩
  intro i hi
  simp only [List.length_cons, List.length_nil] at hi
  interval_cases i
  decide

theorem mgrA_sharesOn : SharesOn mgrA [7, 11, 13] := by
  have h : ∀ m ∈ mgrA.members, m.is_active = true →
      m.share = evaluate [7, 11, 13] (m.id : ZMod 97) := by decide
  exact h

theorem mgrA_goodIds : GoodIds mgrA := ⟨by decide, by decide⟩

theorem mgrInact_sharesOn : SharesOn mgrInact [7, 11, 13] := by
  have h : ∀ m ∈ mgrInact.members, m.is_active = true →
      m.share = evaluate [7, 11, 13] (m.id : ZMod 97) := by decide
  exact h

theorem mgrInact_goodIds : GoodIds mgrInact := ⟨by decide, by decide⟩

theorem remove_member_reshare_preserves_secret_witness :
    (remove_member mgrA 2 [20, 30]).1 = true :=
  (remove_member_reshare_preserves_secret mgrA 2 [20, 30] [7, 11, 13]
    (by decide) (by decide) (by decide) mgrA_sharesOn mgrA_goodIds
    ⟨2, 81, 62, true⟩ (by decide) (by decide) (by decide) (by decide)).1

theorem setup_any_quorum_recovers_secret_witness :
    ∃ l, interpolate (castPoints
        (([⟨1, 31, 88, true⟩, ⟨3, 60, 11, true⟩, ⟨5, 96, 1, true⟩] :
          List (Member 97)).map fun m => (m.id, m.share))) = some l ∧
      l.getD 0 0 = (setup_initial_shares 3 7 [11, 13] 5 (p := 97)).master_secret :=
  setup_any_quorum_recovers_secret 3 5 7 [11, 13] (by decide) (by decide)
    (by decide) (by decide) _ (by decide) (by decide) (by decide)

theorem removed_share_mixing_diverges_witness :
    (remove_member (setup_initial_shares 3 (7 : ZMod 97) [11, 13] 5) 2
      [20, 30]).1 = true :=
  ((removed_share_mixing_diverges (by omega) (7 : ZMod 97) 11 13).1 20 30).1

theorem sign_then_verify_roundtrip_witness :
    ∃ sig, sign_message mgrA 5 [1, 2, 3] = some sig ∧
      verify_signature mgrA 5 sig = true :=
  sign_then_verify_roundtrip mgrA 5 [1, 2, 3] [7, 11, 13] (by decide)
    (by decide) mgrA_sharesOn mgrA_goodIds (by decide) (by decide) (by decide)
    (by decide)

theorem add_member_share_on_current_polynomial_witness :
    ∃ member mgr', add_member mgrA 6 = (some member, mgr') ∧
      member.share = evaluate [7, 11, 13] ((6 : ℕ) : ZMod 97) := by
  obtain ⟨member, mgr', h1, _, _, h4, _⟩ :=
    add_member_share_on_current_polynomial mgrA 6 [7, 11, 13] (by decide)
      (by decide) mgrA_sharesOn mgrA_goodIds (by decide) (by decide) (by decide)
  exact ⟨member, mgr', h1, h4⟩

theorem sign_message_quorum_spec_witness :
    sign_message mgrInact 5 [1, 2] = none :=
  (sign_message_quorum_spec mgrInact 5 [1, 2] [7, 11, 13] (by decide)
    (by decide) mgrInact_sharesOn mgrInact_goodIds).1 (by decide)

theorem interpolate_fails_iff_duplicate_x_witness :
    interpolate [((1 : ZMod 97), 2), ((1 : ZMod 97), 3)] = none :=
  (interpolate_fails_iff_duplicate_x _).2 (by decide)

theorem interpolate_perm_invariant_witness :
    ∃ l, interpolate [((1 : ZMod 97), 5), (2, 9)] = some l ∧
      interpolate [((2 : ZMod 97), 9), (1, 5)] = some l :=
  interpolate_perm_invariant _ _ (by decide) (by decide)

theorem add_member_zero_id_receives_secret_witness :
    ∃ member mgr', add_member mgrA 0 = (some member, mgr') ∧
      member.share = 7 := by
  obtain ⟨member, mgr', h1, _, _, h4, _⟩ :=
    add_member_zero_id_receives_secret mgrA [7, 11, 13] (by decide)
      (by decide) mgrA_sharesOn mgrA_goodIds (by decide) (by decide)
  exact ⟨member, mgr', h1, by rw [h4, List.getD_cons_zero]⟩

theorem membership_ops_atomic_on_failure_witness :
    (add_member mgrA 3).2 = mgrA ∧ (remove_member mgrA 9 []).2 = mgrA :=
  ⟨(membership_ops_atomic_on_failure mgrA 3 []).1 (by decide),
    (membership_ops_atomic_on_failure mgrA 9 []).2 (by decide)⟩

end DCK
